import Mathlib

/-!
Verification of the β-VAE notebook (`2-beta-vae.ipynb`).

Tensors are shallowly embedded as `List ℝ` (flattened element lists) for
value-level properties, and as tuples of natural numbers for shape-level
properties.  Each definition below is a direct translation of the
corresponding notebook cell (or of the PyTorch library primitive the cell
calls into).
-/

open Real

namespace BetaVAE

noncomputable section RealValued

/-- Elementwise combination of three equally shaped tensors (broadcasting-free
case used by the notebook). -/
def zipWith3 (f : ℝ → ℝ → ℝ → ℝ) : List ℝ → List ℝ → List ℝ → List ℝ
  | a :: as, b :: bs, c :: cs => f a b c :: zipWith3 f as bs cs
  | _, _, _ => []

/-- Source: `def sample(mu, logvar): std = torch.exp(logvar / 2);
eps = torch.rand_like(std); return mu + std * eps`.
The noise draw `eps` is made an explicit argument; the rest is the
elementwise computation `mu + exp(logvar/2) * eps`. -/
def sample (mu logvar eps : List ℝ) : List ℝ :=
  zipWith3 (fun m lv e => m + Real.exp (lv / 2) * e) mu logvar eps

/-- PyTorch clamps the logarithms inside `F.binary_cross_entropy` to be at
least −100. -/
def logClamp (r : ℝ) : ℝ := max (Real.log r) (-100)

/-- One summand of `F.binary_cross_entropy(x_recon, x, reduction='sum')`:
`-(x·log x_recon + (1−x)·log(1−x_recon))` with the library's log clamping. -/
def bceTerm (xr xv : ℝ) : ℝ :=
  -(xv * logClamp xr + (1 - xv) * logClamp (1 - xr))

/-- Source: `bce = F.binary_cross_entropy(x_recon, x, reduction='sum')`. -/
def bce (x_recon x : List ℝ) : ℝ :=
  (List.zipWith bceTerm x_recon x).sum

/-- Source: `kld = -1/2 * torch.sum(1 + logvar - mu.pow(2) - logvar.exp())`. -/
def kld (mu logvar : List ℝ) : ℝ :=
  -1 / 2 * (List.zipWith (fun m lv => 1 + lv - m ^ 2 - Real.exp lv) mu logvar).sum

/-- Source: `def vae_loss(x_recon, x, mu, logvar, beta=3):
return bce + beta * kld`. -/
def vae_loss (x_recon x mu logvar : List ℝ) (beta : ℝ := 3) : ℝ :=
  bce x_recon x + beta * kld mu logvar

/-- Library primitive `torch.sigmoid`: `1 / (1 + exp(−x))`. -/
def sigmoid (x : ℝ) : ℝ := 1 / (1 + Real.exp (-x))

/-- Source: `x_recon = torch.sigmoid(self.deconv_recon(z))` — the decoder's
final elementwise sigmoid applied to the last deconvolution's output. -/
def decoder_output (pre : List ℝ) : List ℝ := pre.map sigmoid

/-- Source: `running_loss = 0` at epoch start, then
`running_loss += loss.item()` once per batch. -/
def running_loss (batchLosses : List ℝ) : ℝ :=
  batchLosses.foldl (fun acc l => acc + l) 0

/-- Source: `print(f'> Epoch: ..., Loss: {running_loss / len(train_data)}')`. -/
def epoch_log_value (batchLosses : List ℝ) (n_train : ℕ) : ℝ :=
  running_loss batchLosses / n_train

/-- Observable events of the training script: one loss log per epoch and the
final checkpoint write (`torch.save(vae.state_dict(), 'beta-vae.pth')`). -/
inductive Event where
  | log : ℝ → Event
  | save : Event

/-- Whether an event is the checkpoint write. -/
def Event.isSave : Event → Bool
  | Event.save => true
  | _ => false

/-- The training loop's observable trace, with each epoch's per-batch loss
values abstracted as a list of reals: for each epoch the mean per-sample loss
is logged, and after all epochs the parameters are saved exactly once. -/
def trainingScript (epochLosses : List (List ℝ)) (n_train : ℕ) : List Event :=
  (epochLosses.map fun bl => Event.log (epoch_log_value bl n_train)) ++ [Event.save]

end RealValued

/-- Output size of `nn.Conv2d` with padding 0 and dilation 1:
`⌊(h − k)/s⌋ + 1`. -/
def conv2d_out (h k s : ℕ) : ℕ := (h - k) / s + 1

/-- Output size of `nn.ConvTranspose2d` with padding 0 and dilation 1:
`(h − 1)·s + k + output_padding`. -/
def convT2d_out (h k s op : ℕ) : ℕ := (h - 1) * s + k + op

/-- Shape semantics of `nn.Conv2d(in_channels, out_channels, kernel_size,
stride)`: a (batch, channels, height, width) shape transformer. -/
structure Conv2d where
  in_channels : ℕ
  out_channels : ℕ
  kernel_size : ℕ
  stride : ℕ

def Conv2d.outShape (l : Conv2d) : ℕ × ℕ × ℕ × ℕ → Option (ℕ × ℕ × ℕ × ℕ)
  | (b, c, h, w) =>
    if c = l.in_channels ∧ l.kernel_size ≤ h ∧ l.kernel_size ≤ w then
      some (b, l.out_channels, conv2d_out h l.kernel_size l.stride,
        conv2d_out w l.kernel_size l.stride)
    else none

/-- Shape semantics of `nn.ConvTranspose2d(in_channels, out_channels,
kernel_size, stride, output_padding)`. -/
structure ConvTranspose2d where
  in_channels : ℕ
  out_channels : ℕ
  kernel_size : ℕ
  stride : ℕ
  output_padding : ℕ

def ConvTranspose2d.outShape (l : ConvTranspose2d) : ℕ × ℕ × ℕ × ℕ → Option (ℕ × ℕ × ℕ × ℕ)
  | (b, c, h, w) =>
    if c = l.in_channels ∧ 1 ≤ h ∧ 1 ≤ w ∧ l.output_padding < l.stride then
      some (b, l.out_channels, convT2d_out h l.kernel_size l.stride l.output_padding,
        convT2d_out w l.kernel_size l.stride l.output_padding)
    else none

/-- Shape semantics of `nn.Linear(in_features, out_features)` on a
(batch, features) input. -/
structure Linear where
  in_features : ℕ
  out_features : ℕ

def Linear.outShape (l : Linear) : ℕ × ℕ → Option (ℕ × ℕ)
  | (b, f) => if f = l.in_features then some (b, l.out_features) else none

/-- Shape semantics of `x.flatten(start_dim=1)` on a (batch, channels,
height, width) shape. -/
def flattenShape : ℕ × ℕ × ℕ × ℕ → ℕ × ℕ
  | (b, c, h, w) => (b, c * h * w)

/-- Source: `self.conv1 = nn.Conv2d(3, 16, kernel_size=3, stride=2)`. -/
def conv1 : Conv2d := ⟨3, 16, 3, 2⟩

/-- Source: `self.conv2 = nn.Conv2d(16, 32, kernel_size=3, stride=2)`. -/
def conv2 : Conv2d := ⟨16, 32, 3, 2⟩

/-- Source: `self.conv3 = nn.Conv2d(32, 64, kernel_size=3, stride=2)`. -/
def conv3 : Conv2d := ⟨32, 64, 3, 2⟩

/-- Source: `self.fc_mu = nn.Linear(7*7*64, latent_size)`. -/
def fc_mu (latent_size : ℕ) : Linear := ⟨7 * 7 * 64, latent_size⟩

/-- Source: `self.fc_logvar = nn.Linear(7*7*64, latent_size)`. -/
def fc_logvar (latent_size : ℕ) : Linear := ⟨7 * 7 * 64, latent_size⟩

/-- Shape semantics of `Encoder.forward`: conv1 → conv2 → conv3 (ReLU is
shape-preserving) → flatten → (fc_mu, fc_logvar). -/
def encoderShape (latent_size : ℕ) (s : ℕ × ℕ × ℕ × ℕ) : Option ((ℕ × ℕ) × (ℕ × ℕ)) :=
  (conv1.outShape s).bind fun s1 =>
  (conv2.outShape s1).bind fun s2 =>
  (conv3.outShape s2).bind fun s3 =>
  ((fc_mu latent_size).outShape (flattenShape s3)).bind fun m =>
  ((fc_logvar latent_size).outShape (flattenShape s3)).map fun lv => (m, lv)

/-- Source: `self.fc = nn.Linear(latent_size, 7*7*64)`. -/
def fc (latent_size : ℕ) : Linear := ⟨latent_size, 7 * 7 * 64⟩

/-- Source: `self.deconv1 = nn.ConvTranspose2d(64, 32, kernel_size=3, stride=2)`. -/
def deconv1 : ConvTranspose2d := ⟨64, 32, 3, 2, 0⟩

/-- Source: `self.deconv2 = nn.ConvTranspose2d(32, 16, kernel_size=3, stride=2)`. -/
def deconv2 : ConvTranspose2d := ⟨32, 16, 3, 2, 0⟩

/-- Source: `self.deconv_recon = nn.ConvTranspose2d(16, 3, kernel_size=3,
stride=2, output_padding=1)`. -/
def deconv_recon : ConvTranspose2d := ⟨16, 3, 3, 2, 1⟩

/-- Shape semantics of `z.reshape(-1, 64, 7, 7)` on a (batch, features)
shape: total element count must be divisible by `64·7·7`. -/
def reshape_64_7_7 : ℕ × ℕ → Option (ℕ × ℕ × ℕ × ℕ)
  | (b, f) =>
    if b * f % (64 * 7 * 7) = 0 then some (b * f / (64 * 7 * 7), 64, 7, 7) else none

/-- Shape semantics of `Decoder.forward`: fc → reshape(-1,64,7,7) →
deconv1 → deconv2 → deconv_recon (ReLU and sigmoid are shape-preserving). -/
def decoderShape (latent_size : ℕ) (s : ℕ × ℕ) : Option (ℕ × ℕ × ℕ × ℕ) :=
  ((fc latent_size).outShape s).bind fun s1 =>
  (reshape_64_7_7 s1).bind fun r =>
  (deconv1.outShape r).bind fun d1 =>
  (deconv2.outShape d1).bind fun d2 =>
  deconv_recon.outShape d2

/-- Source: `test_size = 100`. -/
def test_size : ℕ := 100

/-- Source: `batch_size = 4`. -/
def batch_size : ℕ := 4

/-- Source: `paths[:-test_size]` — the training split. -/
def train_paths (paths : List String) : List String :=
  paths.take (paths.length - test_size)

/-- Source: `paths[-test_size:]` — the held-out test split. -/
def test_paths (paths : List String) : List String :=
  paths.drop (paths.length - test_size)

/-- The configuration of a `torch.utils.data.DataLoader` as used here. -/
structure DataLoader where
  batch_size : ℕ
  shuffle : Bool

/-- Source: `DataLoader(train_data, batch_size=batch_size, shuffle=True)`. -/
def train_loader : DataLoader := ⟨batch_size, true⟩

/-- Source: `DataLoader(test_data, batch_size=batch_size)` (shuffle defaults
to False). -/
def test_loader : DataLoader := ⟨batch_size, false⟩

theorem zipWith3_length (f : ℝ → ℝ → ℝ → ℝ) :
    ∀ (as bs cs : List ℝ),
      (zipWith3 f as bs cs).length = min as.length (min bs.length cs.length)
  | [], [], [] => by simp [zipWith3]
  | [], [], _ :: _ => by simp [zipWith3]
  | [], _ :: _, [] => by simp [zipWith3]
  | [], _ :: _, _ :: _ => by simp [zipWith3]
  | _ :: _, [], [] => by simp [zipWith3]
  | _ :: _, [], _ :: _ => by simp [zipWith3]
  | _ :: _, _ :: _, [] => by simp [zipWith3]
  | a :: as, b :: bs, c :: cs => by
    simp [zipWith3, zipWith3_length f as bs cs, Nat.succ_min_succ]

theorem zipWith3_getElem (f : ℝ → ℝ → ℝ → ℝ) :
    ∀ (as bs cs : List ℝ) (i : ℕ) (ha : i < as.length) (hb : i < bs.length)
      (hc : i < cs.length) (h : i < (zipWith3 f as bs cs).length),
      (zipWith3 f as bs cs)[i] = f as[i] bs[i] cs[i]
  | a :: as, b :: bs, c :: cs, 0, _, _, _, _ => rfl
  | a :: as, b :: bs, c :: cs, i + 1, ha, hb, hc, h => by
    simpa [zipWith3] using
      zipWith3_getElem f as bs cs i (Nat.lt_of_succ_lt_succ ha)
        (Nat.lt_of_succ_lt_succ hb) (Nat.lt_of_succ_lt_succ hc)
        (Nat.lt_of_succ_lt_succ (by simpa [zipWith3] using h))

/-- Claim C1: for equally shaped `mu`, `logvar`, `eps` the sampler returns
`mu + exp(logvar/2) * eps` elementwise; in particular
`sample [0] [0] [1] = [1]`. -/
theorem claim_C1_sample_formula (mu logvar eps : List ℝ)
    (h1 : mu.length = logvar.length) (h2 : logvar.length = eps.length) :
    (∀ (i : ℕ) (hm : i < mu.length) (hl : i < logvar.length)
        (he : i < eps.length) (hs : i < (sample mu logvar eps).length),
        (sample mu logvar eps)[i] = mu[i] + Real.exp (logvar[i] / 2) * eps[i])
    ∧ sample [0] [0] [1] = [1] := by
  constructor
  · intro i hm hl he hs
    exact zipWith3_getElem _ mu logvar eps i hm hl he hs
  · simp [sample, zipWith3, Real.exp_zero]

/-- Witness for C1 at `mu = [0]`, `logvar = [0]`, `eps = [1]`. -/
theorem claim_C1_witness :
    ([ (0:ℝ) ].length = [ (0:ℝ) ].length ∧ [ (0:ℝ) ].length = [ (1:ℝ) ].length)
    ∧ sample [0] [0] [1] = [1] :=
  ⟨⟨rfl, rfl⟩, (claim_C1_sample_formula [0] [0] [1] rfl rfl).2⟩

/-- An element of `List.zipWith f l₁ l₂` is `f a b` for members `a`, `b`. -/
theorem mem_zipWith {f : ℝ → ℝ → ℝ} :
    ∀ {l₁ l₂ : List ℝ} {y : ℝ}, y ∈ List.zipWith f l₁ l₂ →
      ∃ a ∈ l₁, ∃ b ∈ l₂, y = f a b
  | a :: as, b :: bs, y, hy => by
    rcases List.mem_cons.mp hy with h | h
    · exact ⟨a, List.mem_cons_self a as, b, List.mem_cons_self b bs, h⟩
    · obtain ⟨a', ha', b', hb', rfl⟩ := mem_zipWith h
      exact ⟨a', List.mem_cons_of_mem _ ha', b', List.mem_cons_of_mem _ hb', rfl⟩

theorem sum_nonpos_of_forall {l : List ℝ} (h : ∀ x ∈ l, x ≤ 0) : l.sum ≤ 0 := by
  induction l with
  | nil => simp
  | cons a as ih =>
    have ha := h a (List.mem_cons_self a as)
    have has := ih fun x hx => h x (List.mem_cons_of_mem a hx)
    simp only [List.sum_cons]
    linarith

theorem sum_eq_zero_iff_of_nonpos {l : List ℝ} (h : ∀ x ∈ l, x ≤ 0) :
    l.sum = 0 ↔ ∀ x ∈ l, x = 0 := by
  induction l with
  | nil => simp
  | cons a as ih =>
    have ha := h a (List.mem_cons_self a as)
    have htail : ∀ x ∈ as, x ≤ 0 := fun x hx => h x (List.mem_cons_of_mem a hx)
    have hsum := sum_nonpos_of_forall htail
    simp only [List.sum_cons, List.forall_mem_cons]
    rw [← ih htail]
    constructor
    · intro h0
      constructor <;> linarith
    · rintro ⟨rfl, h0⟩
      simpa using h0

/-- Each summand `1 + logvar − mu² − exp logvar` of the KL sum is nonpositive. -/
theorem kldSummand_nonpos (m lv : ℝ) : 1 + lv - m ^ 2 - Real.exp lv ≤ 0 := by
  have h := Real.add_one_le_exp lv
  nlinarith [sq_nonneg m]

/-- A KL summand vanishes exactly when its mean and log-variance are both 0. -/
theorem kldSummand_eq_zero_iff (m lv : ℝ) :
    1 + lv - m ^ 2 - Real.exp lv = 0 ↔ m = 0 ∧ lv = 0 := by
  constructor
  · intro h
    have hlv : lv = 0 := by
      by_contra hne
      have := Real.add_one_lt_exp hne
      nlinarith [sq_nonneg m]
    subst hlv
    have : m ^ 2 = 0 := by
      have := Real.exp_zero
      nlinarith
    exact ⟨pow_eq_zero_iff (n := 2) (by norm_num) |>.mp this, rfl⟩
  · rintro ⟨rfl, rfl⟩
    simp [Real.exp_zero]

/-- The KL divergence term of the loss is nonnegative for all `mu`, `logvar`. -/
theorem kld_nonneg (mu logvar : List ℝ) : 0 ≤ kld mu logvar := by
  have h : (List.zipWith (fun m lv => 1 + lv - m ^ 2 - Real.exp lv) mu logvar).sum ≤ 0 := by
    apply sum_nonpos_of_forall
    intro y hy
    obtain ⟨a, _, b, _, rfl⟩ := mem_zipWith hy
    exact kldSummand_nonpos a b
  unfold kld
  nlinarith

theorem kld_forall_zero_iff :
    ∀ (mu logvar : List ℝ), mu.length = logvar.length →
      ((∀ y ∈ List.zipWith (fun m lv => 1 + lv - m ^ 2 - Real.exp lv) mu logvar, y = 0)
        ↔ (∀ m ∈ mu, m = 0) ∧ (∀ lv ∈ logvar, lv = 0))
  | [], [], _ => by simp
  | [], _ :: _, h => by simp at h
  | _ :: _, [], h => by simp at h
  | m :: ms, lv :: lvs, h => by
    have ih := kld_forall_zero_iff ms lvs (Nat.succ_injective h)
    simp only [List.zipWith_cons_cons, List.forall_mem_cons]
    rw [kldSummand_eq_zero_iff, ih]
    tauto

/-- Claim C2: the loss is the summed (clamped) binary cross-entropy plus
`beta` times `−1/2 · Σ(1 + logvar − mu² − exp logvar)`, and `beta`
defaults to `3`. -/
theorem claim_C2_loss_formula (x_recon x mu logvar : List ℝ) (beta : ℝ) :
    vae_loss x_recon x mu logvar beta
      = (List.zipWith
          (fun r v => -(v * max (Real.log r) (-100) + (1 - v) * max (Real.log (1 - r)) (-100)))
          x_recon x).sum
        + beta * (-1 / 2
            * (List.zipWith (fun m lv => 1 + lv - m ^ 2 - Real.exp lv) mu logvar).sum)
    ∧ vae_loss x_recon x mu logvar
      = (List.zipWith
          (fun r v => -(v * max (Real.log r) (-100) + (1 - v) * max (Real.log (1 - r)) (-100)))
          x_recon x).sum
        + 3 * (-1 / 2
            * (List.zipWith (fun m lv => 1 + lv - m ^ 2 - Real.exp lv) mu logvar).sum) :=
  ⟨rfl, rfl⟩

/-- Claim C3: the KL term vanishes iff every latent mean and log-variance
entry is zero. -/
theorem claim_C3_kld_zero_iff (mu logvar : List ℝ) (h : mu.length = logvar.length) :
    kld mu logvar = 0 ↔ (∀ m ∈ mu, m = 0) ∧ (∀ lv ∈ logvar, lv = 0) := by
  have hnonpos : ∀ y ∈ List.zipWith (fun m lv => 1 + lv - m ^ 2 - Real.exp lv) mu logvar,
      y ≤ 0 := by
    intro y hy
    obtain ⟨a, _, b, _, rfl⟩ := mem_zipWith hy
    exact kldSummand_nonpos a b
  have hne : (-1 / 2 : ℝ) ≠ 0 := by norm_num
  rw [kld, mul_eq_zero, or_iff_right hne, sum_eq_zero_iff_of_nonpos hnonpos,
    kld_forall_zero_iff mu logvar h]

/-- Witness for C3 at `mu = [0]`, `logvar = [0]`. -/
theorem claim_C3_witness :
    [ (0:ℝ) ].length = [ (0:ℝ) ].length
    ∧ (kld [0] [0] = 0 ↔ (∀ m ∈ [(0:ℝ)], m = 0) ∧ (∀ lv ∈ [(0:ℝ)], lv = 0)) :=
  ⟨rfl, claim_C3_kld_zero_iff [0] [0] rfl⟩

/-- Each (clamped) binary-cross-entropy summand is nonnegative on `[0,1]²`. -/
theorem bceTerm_nonneg {a b : ℝ} (ha : 0 ≤ a ∧ a ≤ 1) (hb : 0 ≤ b ∧ b ≤ 1) :
    0 ≤ bceTerm a b := by
  have h1 : logClamp a ≤ 0 :=
    max_le (Real.log_nonpos ha.1 ha.2) (by norm_num)
  have h2 : logClamp (1 - a) ≤ 0 :=
    max_le (Real.log_nonpos (by linarith [ha.2]) (by linarith [ha.1])) (by norm_num)
  have t1 : b * logClamp a ≤ 0 := mul_nonpos_of_nonneg_of_nonpos hb.1 h1
  have t2 : (1 - b) * logClamp (1 - a) ≤ 0 :=
    mul_nonpos_of_nonneg_of_nonpos (by linarith [hb.2]) h2
  unfold bceTerm
  linarith

/-- Claim C6: the summed binary cross-entropy is nonnegative whenever all
entries of `x_recon` and `x` lie in `[0,1]`. -/
theorem claim_C6_bce_nonneg (x_recon x : List ℝ)
    (hr : ∀ a ∈ x_recon, 0 ≤ a ∧ a ≤ 1) (hx : ∀ a ∈ x, 0 ≤ a ∧ a ≤ 1) :
    0 ≤ bce x_recon x := by
  unfold bce
  apply List.sum_nonneg
  intro y hy
  obtain ⟨a, ha, b, hb, rfl⟩ := mem_zipWith hy
  exact bceTerm_nonneg (hr a ha) (hx b hb)

/-- Witness for C6 at `x_recon = [1/2]`, `x = [1/2]`. -/
theorem claim_C6_witness :
    (∀ a ∈ [(1:ℝ)/2], 0 ≤ a ∧ a ≤ 1) ∧ 0 ≤ bce [1/2] [1/2] := by
  have h : ∀ a ∈ [(1:ℝ)/2], 0 ≤ a ∧ a ≤ 1 := by
    intro a ha
    simp only [List.mem_singleton] at ha
    subst ha
    norm_num
  exact ⟨h, claim_C6_bce_nonneg [1/2] [1/2] h h⟩

/-- Claim C9: the KL term is nonnegative for all `mu`, `logvar`, hence the
loss is monotonically non-decreasing in `beta` on `beta ≥ 0`. -/
theorem claim_C9_loss_monotone_beta (x_recon x mu logvar : List ℝ) (b1 b2 : ℝ)
    (hb1 : 0 ≤ b1) (hb : b1 ≤ b2) :
    0 ≤ kld mu logvar
    ∧ vae_loss x_recon x mu logvar b1 ≤ vae_loss x_recon x mu logvar b2 := by
  have hk := kld_nonneg mu logvar
  refine ⟨hk, ?_⟩
  unfold vae_loss
  have := mul_le_mul_of_nonneg_right hb hk
  linarith

/-- Witness for C9 at empty images, `mu = [0]`, `logvar = [0]`, betas 0 ≤ 1. -/
theorem claim_C9_witness :
    ((0:ℝ) ≤ 0 ∧ (0:ℝ) ≤ 1)
    ∧ 0 ≤ kld [0] [0] ∧ vae_loss [] [] [0] [0] 0 ≤ vae_loss [] [] [0] [0] 1 :=
  ⟨⟨le_refl 0, by norm_num⟩,
    claim_C9_loss_monotone_beta [] [] [0] [0] 0 1 (le_refl 0) (by norm_num)⟩

/-- Claim C4: on a (batch, 3, 64, 64) input the encoder's three stride-2
convolutions shrink the spatial resolution to 7×7 and both linear heads
produce shape (batch, latent_size), for every positive `latent_size`. -/
theorem claim_C4_encoder_shape (batch latent_size : ℕ) (hpos : 0 < latent_size) :
    conv2d_out (conv2d_out (conv2d_out 64 3 2) 3 2) 3 2 = 7
    ∧ encoderShape latent_size (batch, 3, 64, 64)
      = some ((batch, latent_size), (batch, latent_size)) := by
  constructor
  · rfl
  · simp [encoderShape, Conv2d.outShape, Linear.outShape, flattenShape,
      conv1, conv2, conv3, fc_mu, fc_logvar, conv2d_out]

/-- Witness for C4 at `batch = 1`, `latent_size = 16`. -/
theorem claim_C4_witness :
    0 < 16
    ∧ conv2d_out (conv2d_out (conv2d_out 64 3 2) 3 2) 3 2 = 7
    ∧ encoderShape 16 (1, 3, 64, 64) = some ((1, 16), (1, 16)) :=
  ⟨by norm_num, claim_C4_encoder_shape 1 16 (by norm_num)⟩

theorem sigmoid_nonneg_le_one (x : ℝ) : 0 ≤ sigmoid x ∧ sigmoid x ≤ 1 := by
  have hpos : (0:ℝ) < 1 + Real.exp (-x) := by positivity
  constructor
  · unfold sigmoid
    positivity
  · unfold sigmoid
    rw [div_le_one hpos]
    linarith [Real.exp_pos (-x)]

/-- Claim C5: the decoder maps a (batch, latent_size) input to a
(batch, 3, 64, 64) output — its transposed convolutions taking 7×7 back to
64×64 — and the final sigmoid keeps every output element in [0,1]. -/
theorem claim_C5_decoder_shape_range (batch latent_size : ℕ) (hpos : 0 < latent_size) :
    decoderShape latent_size (batch, latent_size) = some (batch, 3, 64, 64)
    ∧ ∀ pre : List ℝ, ∀ y ∈ decoder_output pre, 0 ≤ y ∧ y ≤ 1 := by
  constructor
  · simp [decoderShape, Linear.outShape, ConvTranspose2d.outShape, fc,
      reshape_64_7_7, deconv1, deconv2, deconv_recon, convT2d_out,
      Nat.mul_mod_left, Nat.mul_div_cancel]
  · intro pre y hy
    obtain ⟨z, _, rfl⟩ := List.mem_map.mp hy
    exact sigmoid_nonneg_le_one z

/-- Witness for C5 at `batch = 2`, `latent_size = 16`, preactivation `[0]`. -/
theorem claim_C5_witness :
    0 < 16
    ∧ decoderShape 16 (2, 16) = some (2, 3, 64, 64)
    ∧ (0 ≤ sigmoid 0 ∧ sigmoid 0 ≤ 1) :=
  ⟨by norm_num, (claim_C5_decoder_shape_range 2 16 (by norm_num)).1,
    (claim_C5_decoder_shape_range 2 16 (by norm_num)).2 [0] (sigmoid 0)
      (by simp [decoder_output])⟩

/-- Claim C7: the test split is exactly the last `test_size = 100` paths and
the train split all preceding paths in order (so the two splits concatenate
back to the original list); the train loader shuffles and the test loader
does not. -/
theorem claim_C7_dataset_split (paths : List String) (h : test_size ≤ paths.length) :
    train_paths paths ++ test_paths paths = paths
    ∧ test_paths paths = (paths.reverse.take test_size).reverse
    ∧ (test_paths paths).length = test_size
    ∧ train_loader.shuffle = true
    ∧ test_loader.shuffle = false := by
  refine ⟨List.take_append_drop _ _, ?_, ?_, rfl, rfl⟩
  · have := List.rtake_eq_reverse_take_reverse (l := paths) (n := test_size)
    simpa [List.rtake, test_paths] using this
  · have h' : 100 ≤ paths.length := h
    show (paths.drop (paths.length - 100)).length = 100
    rw [List.length_drop]
    omega

/-- Witness for C7 on a list of 102 paths. -/
theorem claim_C7_witness :
    test_size ≤ (List.replicate 102 "p").length
    ∧ (train_paths (List.replicate 102 "p") ++ test_paths (List.replicate 102 "p")
        = List.replicate 102 "p"
      ∧ test_paths (List.replicate 102 "p")
        = ((List.replicate 102 "p").reverse.take test_size).reverse
      ∧ (test_paths (List.replicate 102 "p")).length = test_size
      ∧ train_loader.shuffle = true
      ∧ test_loader.shuffle = false) :=
  ⟨by simp [test_size], claim_C7_dataset_split (List.replicate 102 "p") (by simp [test_size])⟩

/-- Claim C8: per epoch the running loss starts at 0 and accumulates the
per-batch loss values, the logged value is their sum divided by the number
of training samples, and the checkpoint write happens exactly once, after
all epoch logs. -/
theorem claim_C8_training_trace (epochLosses : List (List ℝ)) (n_train : ℕ) :
    (∀ bl : List ℝ, running_loss bl = bl.sum
      ∧ epoch_log_value bl n_train = bl.sum / n_train)
    ∧ trainingScript epochLosses n_train
      = (epochLosses.map fun bl => Event.log (bl.sum / n_train)) ++ [Event.save]
    ∧ (trainingScript epochLosses n_train).countP Event.isSave = 1
    ∧ (trainingScript epochLosses n_train).getLast? = some Event.save := by
  have hrun : ∀ bl : List ℝ, running_loss bl = bl.sum := fun bl =>
    (List.sum_eq_foldl (l := bl)).symm
  refine ⟨fun bl => ⟨hrun bl, ?_⟩, ?_, ?_, ?_⟩
  · rw [epoch_log_value, hrun]
  · simp [trainingScript, epoch_log_value, hrun]
  · rw [trainingScript, List.countP_append]
    have h0 : (epochLosses.map fun bl => Event.log (epoch_log_value bl n_train)).countP
        Event.isSave = 0 := by
      rw [List.countP_eq_zero]
      intro a ha
      obtain ⟨bl, _, rfl⟩ := List.mem_map.mp ha
      simp [Event.isSave]
    rw [h0, List.countP_singleton]
    simp [Event.isSave]
  · simp [trainingScript, List.getLast?_concat]

/-- Claim C10: when every noise entry lies in [0,1) — the range of the
notebook's `torch.rand_like` — every coordinate of the sample is at least
the corresponding mean, since `exp(logvar/2) > 0`. -/
theorem claim_C10_sample_ge_mean (mu logvar eps : List ℝ)
    (heps : ∀ e ∈ eps, 0 ≤ e ∧ e < 1) :
    ∀ (i : ℕ) (hm : i < mu.length) (hl : i < logvar.length)
      (he : i < eps.length) (hs : i < (sample mu logvar eps).length),
      mu[i] ≤ (sample mu logvar eps)[i] := by
  intro i hm hl he hs
  rw [show (sample mu logvar eps)[i]
      = mu[i] + Real.exp (logvar[i] / 2) * eps[i]
    from zipWith3_getElem _ mu logvar eps i hm hl he hs]
  have he0 : 0 ≤ eps[i] := (heps _ (List.getElem_mem he)).1
  have hexp : 0 < Real.exp (logvar[i] / 2) := Real.exp_pos _
  nlinarith

/-- Witness for C10 at `mu = [1]`, `logvar = [0]`, `eps = [1/2]`, index 0. -/
theorem claim_C10_witness :
    (∀ e ∈ [(1:ℝ)/2], 0 ≤ e ∧ e < 1)
    ∧ [(1:ℝ)].get ⟨0, by simp⟩
      ≤ (sample [1] [0] [1/2]).get ⟨0, by simp [sample, zipWith3]⟩ := by
  have heps : ∀ e ∈ [(1:ℝ)/2], 0 ≤ e ∧ e < 1 := by
    intro e hee
    simp only [List.mem_singleton] at hee
    subst hee
    norm_num
  exact ⟨heps,
    claim_C10_sample_ge_mean [1] [0] [1/2] heps 0 (by simp) (by simp) (by simp)
      (by simp [sample, zipWith3])⟩

end BetaVAE
